import Mathlib

/-!
Shallow embedding of the AHP numeric core of the mcda-blog repository
(notebook AHP_house_hunting.ipynb). The notebook delegates matrix
construction, eigenvector extraction and the consistency ratio to the
third-party ahpy library, whose code is not part of the repository; those
three operations are modelled from the specification (sections 4.1-4.3 of
spec.md). The direct normalization of quantitative criteria and the global
score aggregation loop are translated from the notebook cells themselves.
All arithmetic is exact rational arithmetic.
-/

set_option maxRecDepth 8000

attribute [local semireducible] Rat.add Rat.mul Rat.inv Rat.sub Rat.ofScientific

deriving instance DecidableEq for Except

namespace AHP

/-- Error taxonomy of the spec (section 7). -/
inductive AhpError where
  | InvalidRatio
  | IncompleteJudgmentSet
  | DuplicateJudgment
  | EigenvectorDidNotConverge
  | UnsupportedMatrixSize
deriving DecidableEq

/-- Modelled from the spec: lookup of a supplied ordered pairwise judgment
(a, b) in the judgment list, returning the first supplied ratio. -/
def lookupJudgment {α : Type} [DecidableEq α]
    (js : List (α × α × ℚ)) (a b : α) : Option ℚ :=
  (js.find? (fun t => decide (t.1 = a) && decide (t.2.1 = b))).map (fun t => t.2.2)

/-- Modelled from the spec: a cell of the comparison matrix. Diagonal cells
are 1; otherwise the supplied ratio is used, or the reciprocal of the
transposed supplied ratio; 0 is junk for the undetermined case, which the
builder rules out beforehand. -/
def cellValue {α : Type} [DecidableEq α]
    (js : List (α × α × ℚ)) (a b : α) : ℚ :=
  if a = b then 1
  else
    match lookupJudgment js a b with
    | some r => r
    | none =>
      match lookupJudgment js b a with
      | some r => 1 / r
      | none => 0

/-- Modelled from the spec: every pair of items is determined by identity,
a supplied judgment, or the transpose of a supplied judgment. -/
def completeJudgments {α : Type} [DecidableEq α]
    (items : List α) (js : List (α × α × ℚ)) : Bool :=
  items.all fun a => items.all fun b =>
    decide (a = b ∨ (lookupJudgment js a b).isSome = true ∨
      (lookupJudgment js b a).isSome = true)

/-- Modelled from the spec: all supplied ratios are strictly positive. -/
def ratiosValid {α : Type} (js : List (α × α × ℚ)) : Bool :=
  js.all fun t => decide (0 < t.2.2)

/-- Modelled from the spec: no two supplied judgments cover the same pair
inconsistently (same direction with different ratios, or opposite
directions with a product different from 1). -/
def noConflicts {α : Type} [DecidableEq α] (js : List (α × α × ℚ)) : Bool :=
  js.all fun t => js.all fun u =>
    decide ((t.1 = u.1 → t.2.1 = u.2.1 → t.2.2 = u.2.2) ∧
            (t.1 = u.2.1 → t.2.1 = u.1 → t.2.2 * u.2.2 = 1))

/-- Modelled from the spec (section 4.1): build the full reciprocal
comparison matrix from a sparse judgment set, or fail. Completeness is
checked first, then ratio positivity, then duplicate consistency. -/
def buildMatrix {α : Type} [DecidableEq α]
    (items : List α) (js : List (α × α × ℚ)) :
    Except AhpError (List (List ℚ)) :=
  if completeJudgments items js then
    if ratiosValid js then
      if noConflicts js then
        .ok (items.map fun a => items.map fun b => cellValue js a b)
      else .error .DuplicateJudgment
    else .error .InvalidRatio
  else .error .IncompleteJudgmentSet

/-- Matrix entry at row i, column j, with junk defaults out of range. -/
def entry (M : List (List ℚ)) (i j : ℕ) : ℚ := (M.getD i []).getD j 0

/-- Dot product of two rational vectors. -/
def dotProd (r v : List ℚ) : ℚ := (List.zipWith (fun a b => a * b) r v).sum

/-- Matrix-vector product, rows times vector. -/
def matVec (M : List (List ℚ)) (v : List ℚ) : List ℚ :=
  M.map fun row => dotProd row v

/-- Renormalize a vector by dividing every component by the component sum
(translated from the notebook function normalize). -/
def normalizeVec (v : List ℚ) : List ℚ := v.map fun x => x / v.sum

/-- Largest componentwise absolute difference of two vectors. -/
def maxAbsDiff (v w : List ℚ) : ℚ :=
  (List.zipWith (fun a b => |a - b|) v w).foldr max 0

/-- Convergence tolerance of the power iteration (spec section 4.2). -/
def convTol : ℚ := 1 / 10 ^ 10

/-- Iteration cap of the power iteration (spec section 4.2). -/
def maxIterations : ℕ := 1000

/-- Modelled from the spec (section 4.2): power iteration. Multiply the
current vector by the matrix, renormalize by the sum, stop when the
componentwise change falls below the tolerance; fail when the fuel runs
out. -/
def powerIter (M : List (List ℚ)) : ℕ → List ℚ → Except AhpError (List ℚ)
  | 0, _ => .error .EigenvectorDidNotConverge
  | fuel + 1, u =>
    let w := normalizeVec (matVec M u)
    if maxAbsDiff w u < convTol then .ok w else powerIter M fuel w

/-- Modelled from the spec (section 4.3): dominant eigenvalue estimate, the
average over i of the ratio of component i of M times v to component i
of v. -/
def lambdaEst (M : List (List ℚ)) (v : List ℚ) : ℚ :=
  (List.zipWith (fun a b => a / b) (matVec M v) v).sum / (M.length : ℚ)

/-- Modelled from the spec (section 4.2): extract the priority vector of a
comparison matrix by power iteration from the all-ones seed (renormalized),
together with the dominant eigenvalue estimate. -/
def extractPriorities (M : List (List ℚ)) :
    Except AhpError (List ℚ × ℚ) :=
  match powerIter M maxIterations (normalizeVec (List.replicate M.length 1)) with
  | .error e => .error e
  | .ok w => .ok (w, lambdaEst M w)

/-- The Saaty random-index table of the spec (section 4.3), indexed from
n = 1. -/
def riTable : List ℚ := [0, 0, 0.58, 0.9, 1.12, 1.24, 1.32, 1.41, 1.45, 1.49]

/-- Modelled from the spec: random index for matrix size n, none outside
the range of the table. -/
def saatyRI (n : ℕ) : Option ℚ :=
  if n = 0 ∨ 10 < n then none else some (riTable.getD (n - 1) 0)

/-- Modelled from the spec (section 4.3): consistency ratio of a matrix of
size n with dominant eigenvalue lam. Sizes up to 2 give 0; sizes beyond the
table give UnsupportedMatrixSize; otherwise CI divided by the random
index. -/
def consistencyRatio (M : List (List ℚ)) (lam : ℚ) : Except AhpError ℚ :=
  if M.length ≤ 2 then .ok 0
  else
    match saatyRI M.length with
    | some ri => .ok (((lam - (M.length : ℚ)) / ((M.length : ℚ) - 1)) / ri)
    | none => .error .UnsupportedMatrixSize

/-- Translated from the notebook: direct normalization of quantitative
values. Invert the raw values when lower is better, keep them when higher
is better, then divide by the sum. There is no guard against a zero value
or a zero sum; rational division totalizes those cases to 0. -/
def normalizeDirect (values : List ℚ) (lowerIsBetter : Bool) : List ℚ :=
  normalizeVec (if lowerIsBetter then values.map (fun x => 1 / x) else values)

/-- Translated from the notebook aggregation loop: for each option the
accumulated sum over criteria of weight times local score. -/
def globalScoresRaw {γ δ : Type} (criteriaWeights : List (γ × ℚ))
    (localVec : γ → δ → ℚ) (options : List δ) : List (δ × ℚ) :=
  options.map fun o =>
    (o, (criteriaWeights.map fun cw => cw.2 * localVec cw.1 o).sum)

/-- Translated from the notebook aggregation loop: accumulate the weighted
sums, then divide every score by the total so the result sums to 1. -/
def globalScores {γ δ : Type} (criteriaWeights : List (γ × ℚ))
    (localVec : γ → δ → ℚ) (options : List δ) : List (δ × ℚ) :=
  let raw := globalScoresRaw criteriaWeights localVec options
  let total := (raw.map Prod.snd).sum
  raw.map fun p => (p.1, p.2 / total)

/-- A well-formed positive square matrix: nonempty, every row as long as
the matrix is high, every entry strictly positive. -/
def IsPosMatrix (M : List (List ℚ)) : Prop :=
  M ≠ [] ∧ ∀ row ∈ M, row.length = M.length ∧ ∀ x ∈ row, 0 < x

instance (M : List (List ℚ)) : Decidable (IsPosMatrix M) := by
  unfold IsPosMatrix; infer_instance

/-- The five decision criteria of the notebook. -/
inductive Crit where
  | Safety | Location | Condition | Price | Size
deriving DecidableEq

/-- The three options of the notebook. -/
inductive House where
  | A | B | C
deriving DecidableEq

def criteriaItems : List Crit := [.Safety, .Location, .Condition, .Price, .Size]

/-- The ten criteria judgments of notebook cell criteria_comparisons. -/
def criteriaJudgments : List (Crit × Crit × ℚ) :=
  [(.Safety, .Location, 3), (.Safety, .Condition, 5), (.Safety, .Price, 7),
   (.Safety, .Size, 9), (.Location, .Condition, 2), (.Location, .Price, 5),
   (.Location, .Size, 7), (.Condition, .Price, 2), (.Condition, .Size, 4),
   (.Price, .Size, 3)]

def houseItems : List House := [.A, .B, .C]

/-- The condition judgments of the notebook. -/
def conditionJudgments : List (House × House × ℚ) :=
  [(.A, .B, 5), (.A, .C, 9), (.B, .C, 4)]

/-- The safety judgments of the notebook. -/
def safetyJudgments : List (House × House × ℚ) :=
  [(.A, .B, 5), (.C, .B, 5), (.A, .C, 1)]

/-- Unwrap a built matrix, with the empty matrix as junk on error. -/
def okMatrix (e : Except AhpError (List (List ℚ))) : List (List ℚ) :=
  match e with
  | .ok M => M
  | .error _ => []

/-- Unwrap an extraction result, with junk on error. -/
def okPriorities (e : Except AhpError (List ℚ × ℚ)) : List ℚ × ℚ :=
  match e with
  | .ok p => p
  | .error _ => ([], 0)

def criteriaMatrix : List (List ℚ) :=
  okMatrix (buildMatrix criteriaItems criteriaJudgments)

def criteriaResult : List ℚ × ℚ := okPriorities (extractPriorities criteriaMatrix)

def criteriaWeights : List ℚ := criteriaResult.1

def criteriaLambda : ℚ := criteriaResult.2

/-- Consistency ratio of the criteria matrix, junk -1 on error. -/
def criteriaCR : ℚ :=
  match consistencyRatio criteriaMatrix criteriaLambda with
  | .ok c => c
  | .error _ => -1

def conditionMatrix : List (List ℚ) :=
  okMatrix (buildMatrix houseItems conditionJudgments)

def conditionWeights : List ℚ :=
  (okPriorities (extractPriorities conditionMatrix)).1

def safetyMatrix : List (List ℚ) :=
  okMatrix (buildMatrix houseItems safetyJudgments)

def safetyWeights : List ℚ :=
  (okPriorities (extractPriorities safetyMatrix)).1

/-- Raw quantitative price values of the notebook, per house. -/
def priceValues : List ℚ := [420000, 380000, 320000]

/-- Raw quantitative distance-to-center values of the notebook. -/
def locationValues : List ℚ := [5, 21, 47]

/-- Raw quantitative size values of the notebook. -/
def sizeValues : List ℚ := [75, 190, 285]

def priceLP : List ℚ := normalizeDirect priceValues true

def locationLP : List ℚ := normalizeDirect locationValues true

def sizeLP : List ℚ := normalizeDirect sizeValues false

def houseIndex : House → ℕ
  | .A => 0
  | .B => 1
  | .C => 2

/-- The local priority table of the notebook, one vector per criterion,
indexed by house. -/
def localVecTable (c : Crit) (h : House) : ℚ :=
  (match c with
   | .Price => priceLP
   | .Location => locationLP
   | .Size => sizeLP
   | .Condition => conditionWeights
   | .Safety => safetyWeights).getD (houseIndex h) 0

/-- Criteria weights paired with their criteria, in matrix order. -/
def criteriaWeightPairs : List (Crit × ℚ) := criteriaItems.zip criteriaWeights

/-- The global score table of the notebook, computed end to end. -/
def globalResult : List (House × ℚ) :=
  globalScores criteriaWeightPairs localVecTable houseItems

def scoreOf (h : House) : ℚ :=
  ((globalResult.find? fun p => decide (p.1 = h)).map Prod.snd).getD 0

/-- Small 2 by 2 demonstration matrix used by witnesses. -/
def demoMatrix : List (List ℚ) := [[1, 2], [1 / 2, 1]]

/-! ## General lemmas about the embedded operations -/

theorem sum_map_div (l : List ℚ) (c : ℚ) :
    (l.map fun x => x / c).sum = l.sum / c := by
  induction l with
  | nil => simp
  | cons a t ih => simp [ih, add_div]

theorem normalizeVec_sum (v : List ℚ) (h : v.sum ≠ 0) :
    (normalizeVec v).sum = 1 := by
  simp [normalizeVec, sum_map_div, div_self h]

theorem normalizeVec_length (v : List ℚ) :
    (normalizeVec v).length = v.length := by
  simp [normalizeVec]

theorem normalizeVec_pos (v : List ℚ) (hv : ∀ x ∈ v, 0 < x) (hne : v ≠ []) :
    ∀ x ∈ normalizeVec v, 0 < x := by
  have hs : 0 < v.sum := List.sum_pos v hv hne
  intro x hx
  simp only [normalizeVec, List.mem_map] at hx
  obtain ⟨a, ha, rfl⟩ := hx
  exact div_pos (hv a ha) hs

theorem dotProd_cons (a b : ℚ) (t w : List ℚ) :
    dotProd (a :: t) (b :: w) = a * b + dotProd t w := by
  simp [dotProd]

theorem dotProd_nonneg (r : List ℚ) :
    ∀ v : List ℚ, (∀ x ∈ r, 0 ≤ x) → (∀ x ∈ v, 0 ≤ x) → 0 ≤ dotProd r v := by
  induction r with
  | nil => intro v _ _; simp [dotProd]
  | cons a t ih =>
    intro v hr hv
    cases v with
    | nil => simp [dotProd]
    | cons b w =>
      rw [dotProd_cons]
      have h1 : 0 ≤ a * b :=
        mul_nonneg (hr a (by simp)) (hv b (by simp))
      have h2 : 0 ≤ dotProd t w :=
        ih w (fun x hx => hr x (by simp [hx])) (fun x hx => hv x (by simp [hx]))
      linarith

theorem dotProd_pos (r v : List ℚ) (hr : ∀ x ∈ r, 0 < x) (hv : ∀ x ∈ v, 0 < x)
    (h1 : r ≠ []) (h2 : v ≠ []) : 0 < dotProd r v := by
  cases r with
  | nil => exact absurd rfl h1
  | cons a t =>
    cases v with
    | nil => exact absurd rfl h2
    | cons b w =>
      rw [dotProd_cons]
      have ha : 0 < a * b := mul_pos (hr a (by simp)) (hv b (by simp))
      have ht : 0 ≤ dotProd t w :=
        dotProd_nonneg t w (fun x hx => le_of_lt (hr x (by simp [hx])))
          (fun x hx => le_of_lt (hv x (by simp [hx])))
      linarith

theorem matVec_length (M : List (List ℚ)) (v : List ℚ) :
    (matVec M v).length = M.length := by
  simp [matVec]

theorem matVec_pos (M : List (List ℚ)) (v : List ℚ) (hM : IsPosMatrix M)
    (hv : ∀ x ∈ v, 0 < x) (hlen : v.length = M.length) :
    ∀ x ∈ matVec M v, 0 < x := by
  obtain ⟨hne, hrows⟩ := hM
  intro x hx
  simp only [matVec, List.mem_map] at hx
  obtain ⟨row, hrow, rfl⟩ := hx
  obtain ⟨hrl, hrpos⟩ := hrows row hrow
  have hMpos : 0 < M.length := List.length_pos.mpr hne
  apply dotProd_pos row v hrpos hv
  · exact List.ne_nil_of_length_pos (by omega)
  · exact List.ne_nil_of_length_pos (by omega)

theorem step_props (M : List (List ℚ)) (u : List ℚ) (hM : IsPosMatrix M)
    (hu : ∀ x ∈ u, 0 < x) (hlen : u.length = M.length) :
    (∀ x ∈ normalizeVec (matVec M u), 0 < x) ∧
      (normalizeVec (matVec M u)).sum = 1 ∧
      (normalizeVec (matVec M u)).length = M.length := by
  have hMpos : 0 < M.length := List.length_pos.mpr hM.1
  have hmvne : matVec M u ≠ [] :=
    List.ne_nil_of_length_pos (by rw [matVec_length]; omega)
  have hmvpos : ∀ x ∈ matVec M u, 0 < x := matVec_pos M u hM hu hlen
  have hsum : 0 < (matVec M u).sum := List.sum_pos _ hmvpos hmvne
  refine ⟨normalizeVec_pos _ hmvpos hmvne, normalizeVec_sum _ (ne_of_gt hsum), ?_⟩
  rw [normalizeVec_length, matVec_length]

theorem powerIter_ok_props (M : List (List ℚ)) (hM : IsPosMatrix M) :
    ∀ (fuel : ℕ) (u w : List ℚ), (∀ x ∈ u, 0 < x) → u.length = M.length →
      powerIter M fuel u = .ok w →
      (∀ x ∈ w, 0 < x) ∧ w.sum = 1 ∧ w.length = M.length := by
  intro fuel
  induction fuel with
  | zero =>
    intro u w _ _ h
    exact absurd h (by simp [powerIter])
  | succ n ih =>
    intro u w hu hlen h
    obtain ⟨hp, hs, hl⟩ := step_props M u hM hu hlen
    rw [powerIter] at h
    by_cases hc : maxAbsDiff (normalizeVec (matVec M u)) u < convTol
    · rw [if_pos hc] at h
      obtain rfl : normalizeVec (matVec M u) = w := by injection h
      exact ⟨hp, hs, hl⟩
    · rw [if_neg hc] at h
      exact ih _ w hp hl h

theorem extractPriorities_props (M : List (List ℚ)) (w : List ℚ) (lam : ℚ)
    (hM : IsPosMatrix M) (h : extractPriorities M = .ok (w, lam)) :
    (∀ x ∈ w, 0 < x) ∧ w.sum = 1 ∧ w.length = M.length := by
  have hMpos : 0 < M.length := List.length_pos.mpr hM.1
  unfold extractPriorities at h
  cases hp : powerIter M maxIterations (normalizeVec (List.replicate M.length 1)) with
  | error e => rw [hp] at h; exact absurd h (by simp)
  | ok w' =>
    rw [hp] at h
    obtain ⟨rfl, rfl⟩ : w' = w ∧ lambdaEst M w' = lam := by
      constructor <;> [skip; skip] <;> injection h with h' <;>
        [exact congrArg Prod.fst h'; exact congrArg Prod.snd h']
    apply powerIter_ok_props M hM maxIterations _ _ _ _ hp
    · intro x hx
      simp only [normalizeVec, List.mem_map] at hx
      obtain ⟨a, ha, rfl⟩ := hx
      have ha1 : a = 1 := List.eq_of_mem_replicate ha
      have hsum : (List.replicate M.length (1 : ℚ)).sum = (M.length : ℚ) := by
        simp [List.sum_replicate]
      rw [ha1, hsum]
      have : (0 : ℚ) < (M.length : ℚ) := by exact_mod_cast hMpos
      positivity
    · rw [normalizeVec_length, List.length_replicate]

theorem lookupJudgment_some {α : Type} [DecidableEq α]
    {js : List (α × α × ℚ)} {a b : α} {r : ℚ}
    (h : lookupJudgment js a b = some r) :
    ∃ t ∈ js, t.1 = a ∧ t.2.1 = b ∧ t.2.2 = r := by
  unfold lookupJudgment at h
  cases hf : js.find? (fun t => decide (t.1 = a) && decide (t.2.1 = b)) with
  | none => rw [hf] at h; simp at h
  | some t =>
    rw [hf] at h
    simp at h
    have hp := List.find?_some hf
    have hm := List.mem_of_find?_eq_some hf
    simp only [Bool.and_eq_true, decide_eq_true_eq] at hp
    exact ⟨t, hm, hp.1, hp.2, h⟩

theorem lookupJudgment_isSome {α : Type} [DecidableEq α]
    {js : List (α × α × ℚ)} {t : α × α × ℚ} (h : t ∈ js) :
    (lookupJudgment js t.1 t.2.1).isSome = true := by
  have hs : (js.find? fun u => decide (u.1 = t.1) && decide (u.2.1 = t.2.1)).isSome :=
    List.find?_isSome.mpr ⟨t, h, by simp⟩
  obtain ⟨u, hu⟩ := Option.isSome_iff_exists.mp hs
  unfold lookupJudgment
  rw [hu]
  rfl

theorem of_completeJudgments {α : Type} [DecidableEq α]
    {items : List α} {js : List (α × α × ℚ)}
    (h : completeJudgments items js = true) :
    ∀ a ∈ items, ∀ b ∈ items,
      a = b ∨ (lookupJudgment js a b).isSome = true ∨
        (lookupJudgment js b a).isSome = true := by
  intro a ha b hb
  simp only [completeJudgments, List.all_eq_true, decide_eq_true_eq] at h
  exact h a ha b hb

theorem of_ratiosValid {α : Type} {js : List (α × α × ℚ)}
    (h : ratiosValid js = true) : ∀ t ∈ js, 0 < t.2.2 := by
  intro t ht
  simp only [ratiosValid, List.all_eq_true, decide_eq_true_eq] at h
  exact h t ht

theorem of_noConflicts {α : Type} [DecidableEq α] {js : List (α × α × ℚ)}
    (h : noConflicts js = true) :
    ∀ t ∈ js, ∀ u ∈ js,
      (t.1 = u.1 → t.2.1 = u.2.1 → t.2.2 = u.2.2) ∧
      (t.1 = u.2.1 → t.2.1 = u.1 → t.2.2 * u.2.2 = 1) := by
  intro t ht u hu
  simp only [noConflicts, List.all_eq_true, decide_eq_true_eq] at h
  exact h t ht u hu

theorem cellValue_diag {α : Type} [DecidableEq α]
    (js : List (α × α × ℚ)) (a : α) : cellValue js a a = 1 := by
  simp [cellValue]

theorem cellValue_recip {α : Type} [DecidableEq α]
    (js : List (α × α × ℚ)) (a b : α)
    (hpos : ∀ t ∈ js, 0 < t.2.2)
    (hnc : ∀ t ∈ js, ∀ u ∈ js,
      (t.1 = u.1 → t.2.1 = u.2.1 → t.2.2 = u.2.2) ∧
      (t.1 = u.2.1 → t.2.1 = u.1 → t.2.2 * u.2.2 = 1))
    (hdet : a = b ∨ (lookupJudgment js a b).isSome = true ∨
      (lookupJudgment js b a).isSome = true) :
    cellValue js a b * cellValue js b a = 1 := by
  by_cases hab : a = b
  · subst hab; simp [cellValue]
  · unfold cellValue
    rw [if_neg hab, if_neg (fun h => hab h.symm)]
    cases h1 : lookupJudgment js a b with
    | some r =>
      cases h2 : lookupJudgment js b a with
      | some r' =>
        obtain ⟨t, htm, ht1, ht2, ht3⟩ := lookupJudgment_some h1
        obtain ⟨u, hum, hu1, hu2, hu3⟩ := lookupJudgment_some h2
        have := (hnc t htm u hum).2 (by rw [ht1, hu2]) (by rw [ht2, hu1])
        rw [ht3, hu3] at this
        simpa using this
      | none =>
        obtain ⟨t, htm, _, _, ht3⟩ := lookupJudgment_some h1
        have hr : 0 < r := ht3 ▸ hpos t htm
        simp only []
        rw [mul_one_div, div_self (ne_of_gt hr)]
    | none =>
      cases h2 : lookupJudgment js b a with
      | some r' =>
        obtain ⟨u, hum, _, _, hu3⟩ := lookupJudgment_some h2
        have hr : 0 < r' := hu3 ▸ hpos u hum
        simp only []
        rw [one_div_mul_cancel (ne_of_gt hr)]
      | none =>
        rcases hdet with h | h | h
        · exact absurd h hab
        · rw [h1] at h; simp at h
        · rw [h2] at h; simp at h

theorem cellValue_given {α : Type} [DecidableEq α]
    (js : List (α × α × ℚ)) (a b : α) (r : ℚ)
    (hpos : ∀ t ∈ js, 0 < t.2.2)
    (hnc : ∀ t ∈ js, ∀ u ∈ js,
      (t.1 = u.1 → t.2.1 = u.2.1 → t.2.2 = u.2.2) ∧
      (t.1 = u.2.1 → t.2.1 = u.1 → t.2.2 * u.2.2 = 1))
    (hmem : (a, b, r) ∈ js) : cellValue js a b = r := by
  by_cases hab : a = b
  · subst hab
    have h2 := (hnc _ hmem _ hmem).2 rfl rfl
    have h0 := hpos _ hmem
    simp only [] at h2 h0
    have : r = 1 ∨ r = -1 := mul_self_eq_one_iff.mp h2
    rcases this with h | h
    · rw [cellValue_diag, h]
    · rw [h] at h0; norm_num at h0
  · unfold cellValue
    rw [if_neg hab]
    have hs : (lookupJudgment js a b).isSome = true :=
      lookupJudgment_isSome (t := (a, b, r)) hmem
    obtain ⟨r', hr'⟩ := Option.isSome_iff_exists.mp hs
    rw [hr']
    obtain ⟨t, htm, ht1, ht2, ht3⟩ := lookupJudgment_some hr'
    have := (hnc t htm (a, b, r) hmem).1 (by rw [ht1]) (by rw [ht2])
    simp only [] at this
    show r' = r
    rw [← ht3]
    exact this

theorem buildMatrix_ok {α : Type} [DecidableEq α]
    {items : List α} {js : List (α × α × ℚ)} {M : List (List ℚ)}
    (h : buildMatrix items js = .ok M) :
    completeJudgments items js = true ∧ ratiosValid js = true ∧
      noConflicts js = true ∧
      M = items.map fun a => items.map fun b => cellValue js a b := by
  unfold buildMatrix at h
  by_cases h1 : completeJudgments items js = true
  · rw [if_pos h1] at h
    by_cases h2 : ratiosValid js = true
    · rw [if_pos h2] at h
      by_cases h3 : noConflicts js = true
      · rw [if_pos h3] at h
        refine ⟨h1, h2, h3, ?_⟩
        injection h with h'
        exact h'.symm
      · rw [if_neg h3] at h; exact absurd h (by simp)
    · rw [if_neg h2] at h; exact absurd h (by simp)
  · rw [if_neg h1] at h; exact absurd h (by simp)

theorem entry_map (items : List α) (f : α → α → ℚ) (i j : ℕ)
    (hi : i < items.length) (hj : j < items.length) :
    entry (items.map fun a => items.map fun b => f a b) i j =
      f (items.get ⟨i, hi⟩) (items.get ⟨j, hj⟩) := by
  unfold entry
  have hilen : i < (items.map fun a => items.map fun b => f a b).length := by
    simpa using hi
  rw [List.getD_eq_getElem _ _ hilen, List.getElem_map]
  have hjlen : j < (items.map fun b => f items[i] b).length := by simpa using hj
  rw [List.getD_eq_getElem _ _ hjlen, List.getElem_map]
  simp

theorem sum_map_add {δ : Type} (l : List δ) (f g : δ → ℚ) :
    (l.map fun x => f x + g x).sum = (l.map f).sum + (l.map g).sum := by
  induction l with
  | nil => simp
  | cons a t ih =>
    simp only [List.map_cons, List.sum_cons, ih]
    ring

theorem sum_map_swap {γ δ : Type} (W : List γ) (opts : List δ) (f : γ → δ → ℚ) :
    (opts.map fun o => (W.map fun c => f c o).sum).sum =
      (W.map fun c => (opts.map fun o => f c o).sum).sum := by
  induction W with
  | nil => simp
  | cons c t ih =>
    simp only [List.map_cons, List.sum_cons]
    rw [← ih, ← sum_map_add]

/-- The denominator used by the aggregation step: the sum over options of
the raw weighted criterion sums. -/
def rawTotal {γ δ : Type} (W : List (γ × ℚ)) (P : γ → δ → ℚ)
    (opts : List δ) : ℚ :=
  (opts.map fun o => (W.map fun cw => cw.2 * P cw.1 o).sum).sum

theorem map_snd_pair {δ : Type} (opts : List δ) (g : δ → ℚ) :
    ((opts.map fun o => (o, g o)).map Prod.snd) = opts.map g := by
  rw [List.map_map]
  apply List.map_congr_left
  intro o _
  simp

theorem globalScores_eq {γ δ : Type} (W : List (γ × ℚ)) (P : γ → δ → ℚ)
    (opts : List δ) :
    globalScores W P opts =
      opts.map fun o =>
        (o, (W.map fun cw => cw.2 * P cw.1 o).sum / rawTotal W P opts) := by
  simp only [globalScores, globalScoresRaw]
  rw [map_snd_pair, List.map_map]
  apply List.map_congr_left
  intro o _
  simp [rawTotal]

theorem rawTotal_eq_one {γ δ : Type} (W : List (γ × ℚ)) (P : γ → δ → ℚ)
    (opts : List δ) (hW : (W.map Prod.snd).sum = 1)
    (hP : ∀ c ∈ W.map Prod.fst, (opts.map fun o => P c o).sum = 1) :
    rawTotal W P opts = 1 := by
  unfold rawTotal
  rw [sum_map_swap]
  have hcongr : (W.map fun cw => (opts.map fun o => cw.2 * P cw.1 o).sum) =
      W.map Prod.snd := by
    apply List.map_congr_left
    intro cw hcw
    have h1 : (opts.map fun o => P cw.1 o).sum = 1 :=
      hP cw.1 (List.mem_map_of_mem Prod.fst hcw)
    calc (opts.map fun o => cw.2 * P cw.1 o).sum
        = cw.2 * (opts.map fun o => P cw.1 o).sum := List.sum_map_mul_left _ _ _
      _ = cw.2 := by rw [h1, mul_one]
  rw [hcongr, hW]

/-! ## Claim theorems -/

/-- C1: for every criteria priority vector W (entries summing to 1) and
family of local priority vectors P (each summing to 1 over the options),
the aggregator computes for each option the sum over criteria of weight
times local score, renormalizes by the total of those sums — which is 1
under the priority-vector preconditions — and the returned vector sums
exactly to 1. -/
theorem global_scores_correct {γ δ : Type} (W : List (γ × ℚ)) (P : γ → δ → ℚ)
    (opts : List δ) (hW : (W.map Prod.snd).sum = 1)
    (hP : ∀ c ∈ W.map Prod.fst, (opts.map fun o => P c o).sum = 1) :
    globalScores W P opts =
      opts.map (fun o =>
        (o, (W.map fun cw => cw.2 * P cw.1 o).sum / rawTotal W P opts)) ∧
    rawTotal W P opts = 1 ∧
    ((globalScores W P opts).map Prod.snd).sum = 1 := by
  have h1 := globalScores_eq W P opts
  have h2 := rawTotal_eq_one W P opts hW hP
  refine ⟨h1, h2, ?_⟩
  rw [h1, h2, map_snd_pair]
  simp only [div_one]
  exact h2

/-- C1 witness: the aggregator on a one-criterion, one-option instance. -/
theorem global_scores_correct_witness :
    ((globalScores [((0 : ℕ), (1 : ℚ))] (fun _ _ => 1) [(7 : ℕ)]).map
      Prod.snd).sum = 1 :=
  (global_scores_correct [((0 : ℕ), (1 : ℚ))] (fun _ _ => 1) [(7 : ℕ)]
    (by simp) (by simp)).2.2

/-- C2: every priority vector produced by the system — by power-iteration
extraction from a positive comparison matrix, or by the direct
normalization path on positive quantitative values — has non-negative
components summing to 1 within 1e-9 (in exact arithmetic the sum is
exactly 1). -/
theorem priority_vector_invariants :
    (∀ (M : List (List ℚ)) (w : List ℚ) (lam : ℚ), IsPosMatrix M →
      extractPriorities M = .ok (w, lam) →
      |w.sum - 1| ≤ 1 / 10 ^ 9 ∧ ∀ x ∈ w, 0 ≤ x) ∧
    (∀ (values : List ℚ) (lowerIsBetter : Bool), values ≠ [] →
      (∀ x ∈ values, 0 < x) →
      |(normalizeDirect values lowerIsBetter).sum - 1| ≤ 1 / 10 ^ 9 ∧
      ∀ x ∈ normalizeDirect values lowerIsBetter, 0 ≤ x) := by
  constructor
  · intro M w lam hM h
    obtain ⟨hpos, hsum, _⟩ := extractPriorities_props M w lam hM h
    refine ⟨by rw [hsum]; norm_num, fun x hx => le_of_lt (hpos x hx)⟩
  · intro values lower hne hpos
    have hvne : (if lower then values.map fun x => 1 / x else values) ≠ [] := by
      cases lower <;> simp [hne]
    have hvpos : ∀ x ∈ (if lower then values.map fun x => 1 / x else values),
        0 < x := by
      cases lower
      · simpa using hpos
      · intro x hx
        simp only [if_pos, List.mem_map] at hx
        obtain ⟨a, ha, rfl⟩ := hx
        exact div_pos one_pos (hpos a ha)
    have hs : 0 < (if lower then values.map fun x => 1 / x else values).sum :=
      List.sum_pos _ hvpos hvne
    unfold normalizeDirect
    refine ⟨by rw [normalizeVec_sum _ (ne_of_gt hs)]; norm_num, ?_⟩
    intro x hx
    exact le_of_lt (normalizeVec_pos _ hvpos hvne x hx)

/-- C2 witness: the invariants hold for the extraction on the 2 by 2
demonstration matrix and for the direct normalization of two positive
values. -/
theorem priority_vector_invariants_witness :
    (|(([2 / 3, 1 / 3] : List ℚ)).sum - 1| ≤ 1 / 10 ^ 9 ∧
      ∀ x ∈ ([2 / 3, 1 / 3] : List ℚ), 0 ≤ x) ∧
    (|(AHP.normalizeDirect [1, 2] true).sum - 1| ≤ 1 / 10 ^ 9 ∧
      ∀ x ∈ AHP.normalizeDirect [1, 2] true, 0 ≤ x) :=
  ⟨priority_vector_invariants.1 demoMatrix [2 / 3, 1 / 3] 2 (by decide)
      (by decide),
    priority_vector_invariants.2 [1, 2] true (by decide) (by decide)⟩

/-- C3: the consistency checker returns 0 for any matrix of size at most 2
regardless of the eigenvalue, returns CI divided by the Saaty random index
for sizes in the range of the table, and fails with UnsupportedMatrixSize
beyond the table. -/
theorem consistency_ratio_spec (M : List (List ℚ)) (lam : ℚ) :
    (M.length ≤ 2 → consistencyRatio M lam = .ok 0) ∧
    (∀ ri, 3 ≤ M.length → saatyRI M.length = some ri →
      consistencyRatio M lam =
        .ok (((lam - (M.length : ℚ)) / ((M.length : ℚ) - 1)) / ri)) ∧
    (10 < M.length → consistencyRatio M lam = .error .UnsupportedMatrixSize) := by
  refine ⟨?_, ?_, ?_⟩
  · intro h
    simp [consistencyRatio, h]
  · intro ri h3 hri
    unfold consistencyRatio
    rw [if_neg (by omega), hri]
  · intro h10
    unfold consistencyRatio
    rw [if_neg (by omega)]
    have hnone : saatyRI M.length = none := by
      unfold saatyRI
      rw [if_pos (Or.inr h10)]
    rw [hnone]

/-- C3 witness: a 2 by 2 matrix gives 0 whatever the eigenvalue, a 5 by 5
matrix gives CI divided by 1.12, an 11 by 11 matrix is unsupported. -/
theorem consistency_ratio_spec_witness :
    consistencyRatio [[1, 7], [1 / 7, 1]] 99 = .ok 0 ∧
    consistencyRatio (List.replicate 5 [1]) 5.15 =
      .ok (((5.15 - (5 : ℚ)) / ((5 : ℚ) - 1)) / 1.12) ∧
    consistencyRatio (List.replicate 11 [1]) 11 =
      .error .UnsupportedMatrixSize := by
  refine ⟨(consistency_ratio_spec [[1, 7], [1 / 7, 1]] 99).1 (by decide),
    ?_, (consistency_ratio_spec (List.replicate 11 [1]) 11).2.2 (by decide)⟩
  have h := (consistency_ratio_spec (List.replicate 5 [1]) 5.15).2.1 1.12
    (by decide) (by decide)
  simpa using h

/-- C4: every matrix returned by the builder has unit diagonal, satisfies
the reciprocal invariant, and carries the supplied judgment ratio wherever
one was given. -/
theorem build_matrix_invariants {α : Type} [DecidableEq α] (items : List α)
    (js : List (α × α × ℚ)) (M : List (List ℚ))
    (h : buildMatrix items js = .ok M) :
    (∀ i, i < items.length → entry M i i = 1) ∧
    (∀ i j, i < items.length → j < items.length →
      entry M i j * entry M j i = 1) ∧
    (∀ i j (hi : i < items.length) (hj : j < items.length) (r : ℚ),
      (items.get ⟨i, hi⟩, items.get ⟨j, hj⟩, r) ∈ js → entry M i j = r) := by
  obtain ⟨hC, hR, hN, hM⟩ := buildMatrix_ok h
  subst hM
  have hpos := of_ratiosValid hR
  have hnc := of_noConflicts hN
  have hdet := of_completeJudgments hC
  refine ⟨?_, ?_, ?_⟩
  · intro i hi
    rw [entry_map items _ i i hi hi]
    exact cellValue_diag js _
  · intro i j hi hj
    rw [entry_map items _ i j hi hj, entry_map items _ j i hj hi]
    exact cellValue_recip js _ _ hpos hnc
      (hdet _ (List.get_mem items i hi) _ (List.get_mem items j hj))
  · intro i j hi hj r hmem
    rw [entry_map items _ i j hi hj]
    exact cellValue_given js _ _ r hpos hnc hmem

/-- C4 witness: the matrix built from the condition judgments of the
notebook has unit diagonal, reciprocal entries, and the supplied ratio 5
for House A against House B. -/
theorem build_matrix_invariants_witness :
    entry [[1, 5, 9], [1 / 5, 1, 4], [1 / 9, 1 / 4, 1]] 0 0 = 1 ∧
    entry [[1, 5, 9], [1 / 5, 1, 4], [1 / 9, 1 / 4, 1]] 0 1 *
      entry [[1, 5, 9], [1 / 5, 1, 4], [1 / 9, 1 / 4, 1]] 1 0 = 1 ∧
    entry [[1, 5, 9], [1 / 5, 1, 4], [1 / 9, 1 / 4, 1]] 0 1 = 5 := by
  have h := build_matrix_invariants houseItems conditionJudgments
    [[1, 5, 9], [1 / 5, 1, 4], [1 / 9, 1 / 4, 1]] (by decide)
  exact ⟨h.1 0 (by decide), h.2.1 0 1 (by decide) (by decide),
    h.2.2 0 1 (by decide) (by decide) 5 (by decide)⟩

/-- C5: direct normalization yields scores proportional to the reciprocal
raw value when lower is better and to the raw value when higher is better,
dividing by the sum across options; the price scenario values match the
reference output to three decimals. -/
theorem normalize_direct_spec :
    (∀ values : List ℚ, normalizeDirect values true =
      values.map fun x => (1 / x) / (values.map fun y => 1 / y).sum) ∧
    (∀ values : List ℚ, normalizeDirect values false =
      values.map fun x => x / values.sum) ∧
    (|priceLP.getD 0 0 - 0.293| < 0.0005 ∧ |priceLP.getD 1 0 - 0.323| < 0.0005 ∧
      |priceLP.getD 2 0 - 0.384| < 0.0005) := by
  refine ⟨?_, ?_, by decide⟩
  · intro v
    simp [normalizeDirect, normalizeVec, List.map_map, Function.comp]
  · intro v
    simp [normalizeDirect, normalizeVec]

/-- C6 counterexample: on the reference criteria judgments, the checker of
this development — which uses the Saaty random-index table of the spec
(RI(5) = 1.12) — does not reproduce a consistency ratio of 0.035 to three
decimals together with the claimed weights; the computed ratio is about
0.0330. The notebook output of 0.035 corresponds to the Donegan-Dodd
random indices that the underlying library uses by default. -/
theorem scenario1_claim_false :
    ¬(|criteriaWeights.getD 0 0 - 0.524| < 0.0005 ∧
      |criteriaWeights.getD 1 0 - 0.247| < 0.0005 ∧
      |criteriaWeights.getD 2 0 - 0.123| < 0.0005 ∧
      |criteriaWeights.getD 3 0 - 0.071| < 0.0005 ∧
      |criteriaWeights.getD 4 0 - 0.036| < 0.0005 ∧
      |criteriaCR - 0.035| < 0.0005) := by decide

/-- C6 amended: the reference criteria judgments yield weights of about
0.524, 0.247, 0.123, 0.071 and 0.036 (to three decimals), and under the
Saaty random-index table of the spec the consistency ratio is about 0.033
rather than the 0.035 printed by the notebook. -/
theorem scenario1_amended :
    |criteriaWeights.getD 0 0 - 0.524| < 0.0005 ∧
    |criteriaWeights.getD 1 0 - 0.247| < 0.0005 ∧
    |criteriaWeights.getD 2 0 - 0.123| < 0.0005 ∧
    |criteriaWeights.getD 3 0 - 0.071| < 0.0005 ∧
    |criteriaWeights.getD 4 0 - 0.036| < 0.0005 ∧
    |criteriaCR - 0.033| < 0.0005 := by decide

/-- C7: end-to-end aggregation of the criteria weights with the five local
priority vectors (condition and safety from pairwise matrices, price,
location and size from direct normalization) yields global scores of about
0.54 for House A, 0.31 for House C and 0.15 for House B, ranking
A above C above B. -/
theorem scenario4_global_scores :
    |scoreOf .A - 0.54| < 0.005 ∧ |scoreOf .C - 0.31| < 0.005 ∧
    |scoreOf .B - 0.15| < 0.005 ∧
    scoreOf .B < scoreOf .C ∧ scoreOf .C < scoreOf .A := by decide

/-- C8: whenever some unordered pair of distinct items is supplied neither
directly nor as the transpose of a supplied pair, the builder fails with
IncompleteJudgmentSet. -/
theorem incomplete_judgments_error {α : Type} [DecidableEq α]
    (items : List α) (js : List (α × α × ℚ)) (a b : α)
    (ha : a ∈ items) (hb : b ∈ items) (hab : a ≠ b)
    (h1 : lookupJudgment js a b = none) (h2 : lookupJudgment js b a = none) :
    buildMatrix items js = .error .IncompleteJudgmentSet := by
  unfold buildMatrix
  rw [if_neg]
  intro hc
  rcases of_completeJudgments hc a ha b hb with h | h | h
  · exact hab h
  · rw [h1] at h; simp at h
  · rw [h2] at h; simp at h

/-- C8 witness: a judgment set over the three houses missing the pair of
House B and House C fails with IncompleteJudgmentSet. -/
theorem incomplete_judgments_error_witness :
    buildMatrix houseItems [(House.A, House.B, 3)] =
      .error .IncompleteJudgmentSet :=
  incomplete_judgments_error houseItems [(House.A, House.B, 3)]
    House.B House.C (by decide) (by decide) (by decide) (by decide) (by decide)

/-- C9: priority extraction is deterministic — two successful runs on the
same matrix return identical weights and identical dominant eigenvalue
(the embedding is a pure function of the matrix and the fixed all-ones
seed). -/
theorem extraction_deterministic (M : List (List ℚ)) (w₁ w₂ : List ℚ)
    (l₁ l₂ : ℚ)
    (h₁ : extractPriorities M = .ok (w₁, l₁))
    (h₂ : extractPriorities M = .ok (w₂, l₂)) :
    w₁ = w₂ ∧ l₁ = l₂ := by
  rw [h₁] at h₂
  injection h₂ with h
  exact ⟨congrArg Prod.fst h, congrArg Prod.snd h⟩

/-- C9 witness: two runs on the demonstration matrix agree. -/
theorem extraction_deterministic_witness :
    ([2 / 3, 1 / 3] : List ℚ) = [2 / 3, 1 / 3] ∧ (2 : ℚ) = 2 :=
  extraction_deterministic demoMatrix [2 / 3, 1 / 3] [2 / 3, 1 / 3] 2 2
    (by decide) (by decide)

/-- C10: for strictly positive raw values every division performed by the
direct normalization has a nonzero denominator and the sum-to-1 invariant
holds, while a zero raw value (under lower-is-better inversion) or a zero
value sum (under higher-is-better) hits a zero denominator — in the
rational embedding division by zero is totalized to 0, and the output then
sums to 0 instead of 1, so strict positivity is a genuine precondition. -/
theorem normalize_direct_positivity_precondition :
    (∀ values : List ℚ, values ≠ [] → (∀ x ∈ values, 0 < x) →
      (∀ x ∈ values, x ≠ 0) ∧ (values.map fun x => 1 / x).sum ≠ 0 ∧
      values.sum ≠ 0 ∧ (normalizeDirect values true).sum = 1 ∧
      (normalizeDirect values false).sum = 1) ∧
    (normalizeDirect [0] true).sum = 0 ∧
    (normalizeDirect [1, -1] false).sum = 0 := by
  refine ⟨?_, by decide, by decide⟩
  intro values hne hpos
  have hinvpos : ∀ x ∈ values.map fun x => 1 / x, 0 < x := by
    intro x hx
    simp only [List.mem_map] at hx
    obtain ⟨a, ha, rfl⟩ := hx
    exact div_pos one_pos (hpos a ha)
  have hinvne : (values.map fun x => 1 / x) ≠ [] := by simp [hne]
  have hsum : 0 < values.sum := List.sum_pos values hpos hne
  have hinvsum : 0 < (values.map fun x => 1 / x).sum :=
    List.sum_pos _ hinvpos hinvne
  refine ⟨fun x hx => ne_of_gt (hpos x hx), ne_of_gt hinvsum, ne_of_gt hsum,
    ?_, ?_⟩
  · unfold normalizeDirect
    rw [if_pos rfl]
    exact normalizeVec_sum _ (ne_of_gt hinvsum)
  · unfold normalizeDirect
    rw [if_neg (by simp)]
    exact normalizeVec_sum _ (ne_of_gt hsum)

/-- C10 witness: the guarantees at the concrete positive input [1, 2]. -/
theorem normalize_direct_positivity_precondition_witness :
    (∀ x ∈ ([1, 2] : List ℚ), x ≠ 0) ∧
    ((([1, 2] : List ℚ)).map fun x => 1 / x).sum ≠ 0 ∧
    (([1, 2] : List ℚ)).sum ≠ 0 ∧
    (AHP.normalizeDirect [1, 2] true).sum = 1 ∧
    (AHP.normalizeDirect [1, 2] false).sum = 1 :=
  normalize_direct_positivity_precondition.1 [1, 2] (by decide) (by decide)

end AHP
